import Mathlib

/-!
Shallow embedding of the spectrum-analysis core of the repository
(src/src/spectrum.rs and src/myalgorithm/src/lib.rs), over the real
numbers: f32 arithmetic is modelled by exact real arithmetic, the
rustfft forward transform by the textbook unnormalized DFT, and the
NumCast conversion in get_normalized_db by an Option-valued argument.
Definitions mirror the Rust source line by line; theorems settle the
frozen claims about the program.
-/

namespace SpectrumAnalyse

noncomputable section

/-! ### Constants and utilities, from src/myalgorithm/src/lib.rs -/

def SAMPLE_RATE : ℝ := 44100.0

def MAX_FREQ : ℝ := SAMPLE_RATE / 2.0

def BUFFER_SZ : ℕ := 4096

def BUFFER_SZ_HALF : ℕ := BUFFER_SZ / 2

/-- Rust: idx as f32 * SAMPLE_RATE / ((BUFFER_SZ/2) as f32) + 1.0 -/
def get_freq (idx : ℕ) : ℝ :=
  (idx : ℝ) * SAMPLE_RATE / ((BUFFER_SZ / 2 : ℕ) : ℝ) + 1.0

/-- Rust get_normalized_db is generic over T : NumCast; the conversion
result NumCast::from(db) is an Option and unwrap_or(0.0) supplies the
default.  The Option argument models the conversion outcome. -/
def get_normalized_db (db : Option ℝ) : ℝ :=
  (db.getD 0.0 + 90.0) / 90.0

/-! ### Band-pass filters, from src/src/spectrum.rs -/

inductive Resolution
  | Standard
  | High

structure BandpassFilter where
  low : ℝ
  high : ℝ
  y1 : ℝ
  y2 : ℝ

def BandpassFilter.new (low high : ℝ) : BandpassFilter :=
  { low := low, high := high, y1 := 0.0, y2 := 0.0 }

/-- One step of the two-stage IIR; Rust mutates y1, y2 in place, here the
updated filter is returned together with the output sample. -/
def BandpassFilter.process (f : BandpassFilter) (x sample_rate : ℝ) :
    BandpassFilter × ℝ :=
  let dt := 1.0 / sample_rate
  let rc_low := 1.0 / (2.0 * Real.pi * f.high)
  let rc_high := 1.0 / (2.0 * Real.pi * f.low)
  let alpha_low := dt / (rc_low + dt)
  let alpha_high := rc_high / (rc_high + dt)
  let y1 := alpha_low * x + (1.0 - alpha_low) * f.y1
  let y2 := alpha_high * y1 + (1.0 - alpha_high) * f.y2
  ({ f with y1 := y1, y2 := y2 }, y1 - y2)

structure SpectrumAnalyzer where
  filters : List BandpassFilter
  resolution : Resolution
  sample_rate : ℝ

def SpectrumAnalyzer.new (sample_rate : ℝ) : SpectrumAnalyzer :=
  { filters :=
      [BandpassFilter.new 0.0 80.0,
       BandpassFilter.new 80.0 1000.0,
       BandpassFilter.new 1000.0 6000.0,
       BandpassFilter.new 6000.0 20000.0],
    resolution := Resolution.High,
    sample_rate := sample_rate }

/-! ### Spectral path, from src/src/spectrum.rs -/

/-- Rust apply_window: iter().enumerate().map with the raised-cosine
window 0.5 * (1 - cos(2 pi i / 4095)), producing complex values with
zero imaginary part. -/
def apply_window (audio_buffer : List ℝ) : List ℂ :=
  audio_buffer.enum.map fun ix =>
    let window := 0.5 * (1.0 - Real.cos (2.0 * Real.pi * (ix.1 : ℝ) / 4095.0))
    ((ix.2 * window : ℝ) : ℂ)

/-- The rustfft forward plan of length N computes the unnormalized DFT
X(k) = sum_n x(n) * exp(-2 pi I n k / N). -/
def dft (x : List ℂ) : List ℂ :=
  (List.range x.length).map fun (k : ℕ) =>
    ∑ n ∈ Finset.range x.length,
      x.getD n 0 * Complex.exp (-(2 * (Real.pi : ℂ) * Complex.I) * (n : ℂ) * (k : ℂ) / (x.length : ℂ))

/-- Rust: rms = sqrt(sum x*x / len), peak = fold max |x|,
dynamic_range = rms.max(peak * 0.7). -/
def dynamic_range_of (audio_buffer : List ℝ) : ℝ :=
  let rms := Real.sqrt (((audio_buffer.map fun x => x * x).sum) / (audio_buffer.length : ℝ))
  let peak := audio_buffer.foldl (fun m x => max m |x|) 0.0
  max rms (peak * 0.7)

/-- The filter_map closure of compute_spectrum: the bin is dropped when
its mapped frequency exceeds the fixed Nyquist limit, otherwise the
clamped, ERB-weighted normalized decibel value is emitted.  f32::clamp
(lo, hi) with lo <= hi is min (max x lo) hi. -/
def spectrum_bin (dynamic_range : ℝ) (i : ℕ) (c : ℂ) : Option ℝ :=
  let freq := get_freq i
  if freq > SAMPLE_RATE / 2.0 then none
  else
    let erb := 21.4 * Real.logb 10 (0.00437 * freq + 1.0)
    let magnitude := Complex.abs c / (BUFFER_SZ_HALF : ℝ) * dynamic_range
    let db := 20.0 * Real.logb 10 (magnitude + 1e-10)
    let normalized_db := min (max (get_normalized_db (some db)) 0.0) 1.2
    some (normalized_db * (1.0 + erb * 0.1))

/-- The spectrum vector built by iter().take(BUFFER_SZ_HALF).enumerate()
.filter_map(..) in compute_spectrum, before padding and smoothing. -/
def pre_spectrum (audio_buffer : List ℝ) : List ℝ :=
  let complex_buffer := dft (apply_window audio_buffer)
  ((complex_buffer.take BUFFER_SZ_HALF).enum).filterMap fun ic =>
    spectrum_bin (dynamic_range_of audio_buffer) ic.1 ic.2

/-- The while-loop pushing 0.0 until the spectrum has BUFFER_SZ entries. -/
def pad_spectrum (spectrum : List ℝ) : List ℝ :=
  spectrum ++ List.replicate (BUFFER_SZ - spectrum.length) 0.0

/-- Rust smooth_spectrum updates spectrum[i] for i in 1..len-1 IN PLACE:
spectrum[i] = spectrum[i]*0.5 + spectrum[i-1]*0.25 + spectrum[i+1]*0.25,
so the left neighbour read at step i is the value already rewritten at
step i-1.  smooth_go carries that already-smoothed left neighbour. -/
def smooth_go : ℝ → List ℝ → List ℝ
  | _, [] => []
  | _, [x] => [x]
  | prev, x :: y :: t =>
    let x' := x * 0.5 + prev * 0.25 + y * 0.25
    x' :: smooth_go x' (y :: t)

def smooth_spectrum : List ℝ → List ℝ
  | [] => []
  | a :: rest => a :: smooth_go a rest

/-- compute_spectrum: window, FFT, per-bin filter_map, pad, smooth.
The fft_planner is deterministic and stateless in effect, and no other
field of the analyzer is read on this path. -/
def SpectrumAnalyzer.compute_spectrum (_self : SpectrumAnalyzer)
    (audio_buffer : List ℝ) : List ℝ :=
  smooth_spectrum (pad_spectrum (pre_spectrum audio_buffer))

/-! ### Band-level path, from src/src/spectrum.rs -/

/-- samples.iter().map(|&x| filter.process(x, sample_rate)).collect(),
threading the mutable filter state through the list. -/
def run_filter (sample_rate : ℝ) : BandpassFilter → List ℝ → BandpassFilter × List ℝ
  | f, [] => (f, [])
  | f, x :: xs =>
    let fy := f.process x sample_rate
    let rest := run_filter sample_rate fy.1 xs
    (rest.1, fy.2 :: rest.2)

/-- Body of the per-filter loop of compute_band_levels. -/
def band_level (sample_rate : ℝ) (f : BandpassFilter) (samples : List ℝ) :
    BandpassFilter × ℝ :=
  let fr := run_filter sample_rate f samples
  let filtered := fr.2
  let rms := Real.sqrt (((filtered.map fun x => x * x).sum) / (filtered.length : ℝ))
  let peak := filtered.foldl (fun a b => max a |b|) 0.0
  (fr.1, 0.7 * rms + 0.3 * peak)

/-- compute_band_levels: each filter of the bank is run over the whole
sample sequence (its state updated in place) and one level per filter is
collected, in filter order. -/
def SpectrumAnalyzer.compute_band_levels (a : SpectrumAnalyzer)
    (samples : List ℝ) : SpectrumAnalyzer × List ℝ :=
  let results := a.filters.map fun f => band_level a.sample_rate f samples
  ({ a with filters := results.map Prod.fst }, results.map Prod.snd)

/-! ### Helper lemmas about the smoothing pass -/

theorem smooth_go_length : ∀ (prev : ℝ) (l : List ℝ), (smooth_go prev l).length = l.length
  | _, [] => rfl
  | _, [_] => rfl
  | prev, x :: y :: t => by
    simp only [smooth_go, List.length_cons]
    rw [smooth_go_length (x * 0.5 + prev * 0.25 + y * 0.25) (y :: t)]
    simp

theorem smooth_spectrum_length (l : List ℝ) : (smooth_spectrum l).length = l.length := by
  cases l with
  | nil => rfl
  | cons a rest => simp [smooth_spectrum, smooth_go_length]

theorem smooth_go_getD :
    ∀ (prev : ℝ) (l : List ℝ) (i : ℕ), i + 1 < l.length →
      (smooth_go prev l).getD i 0 =
        l.getD i 0 * 0.5 +
          (if i = 0 then prev else (smooth_go prev l).getD (i - 1) 0) * 0.25 +
          l.getD (i + 1) 0 * 0.25
  | _, [], _, h => by simp at h
  | _, [_], _, h => by simp at h
  | prev, x :: y :: t, 0, _ => by simp [smooth_go]
  | prev, x :: y :: t, (k + 1), h => by
    have hk : k + 1 < (y :: t).length := by
      simpa using Nat.lt_of_succ_lt_succ h
    have ih := smooth_go_getD (x * 0.5 + prev * 0.25 + y * 0.25) (y :: t) k hk
    simp only [smooth_go, List.getD_cons_succ]
    rw [ih]
    cases k with
    | zero => simp
    | succ m => simp

theorem smooth_go_getD_last :
    ∀ (prev : ℝ) (l : List ℝ), l ≠ [] →
      (smooth_go prev l).getD (l.length - 1) 0 = l.getD (l.length - 1) 0
  | _, [], h => absurd rfl h
  | _, [_], _ => rfl
  | prev, x :: y :: t, _ => by
    have ih := smooth_go_getD_last (x * 0.5 + prev * 0.25 + y * 0.25) (y :: t)
      (List.cons_ne_nil y t)
    simp only [List.length_cons, Nat.add_sub_cancel] at ih ⊢
    simpa [smooth_go] using ih

theorem smooth_go_const :
    ∀ (v : ℝ) (l : List ℝ), (∀ x ∈ l, x = v) → smooth_go v l = l
  | _, [], _ => rfl
  | _, [_], _ => rfl
  | v, x :: y :: t, h => by
    have hx : x = v := h x (by simp)
    have hy : y = v := h y (by simp)
    have hv : x * 0.5 + v * 0.25 + y * 0.25 = v := by rw [hx, hy]; ring
    simp only [smooth_go, hv]
    rw [smooth_go_const v (y :: t) (fun z hz => h z (List.mem_cons_of_mem x hz))]
    rw [hx]

/-! ### Claims C3 and C9: the smoothing pass -/

/-- The claim's version of the smoothing pass: every interior bin is
rebuilt from the values held BEFORE the pass. -/
def spec_smooth (l : List ℝ) : List ℝ :=
  (List.range l.length).map fun i =>
    if 1 ≤ i ∧ i + 1 < l.length then
      l.getD i 0 * 0.5 + l.getD (i - 1) 0 * 0.25 + l.getD (i + 1) 0 * 0.25
    else l.getD i 0

/-- C3 counterexample: on the spectrum [1, 0, 0, 0] the code's in-place
smoothing yields [1, 0.25, 0.0625, 0] (the already-smoothed left
neighbour 0.25 leaks into bin 2), while the claimed three-point average
of the pre-pass values yields [1, 0.25, 0, 0]. -/
theorem claim_C3_counterexample :
    smooth_spectrum [1, 0, 0, 0] ≠ spec_smooth [1, 0, 0, 0] := by
  have h1 : smooth_spectrum [1, 0, 0, 0] = [1, 0.25, 0.0625, 0] := by
    norm_num [smooth_spectrum, smooth_go]
  have h2 : spec_smooth [1, 0, 0, 0] = [1, 0.25, 0, 0] := by
    have hr : List.range 4 = [0, 1, 2, 3] := rfl
    norm_num [spec_smooth, hr, List.getD]
  rw [h1, h2]
  intro h
  have := List.cons.inj h
  have := List.cons.inj this.2
  have h3 := (List.cons.inj this.2).1
  norm_num at h3

/-- C3 (amended): the smoothing pass keeps the first and the last bin and
rewrites every interior bin i, in order of increasing i, to
0.5 * old self + 0.25 * left neighbour + 0.25 * old right neighbour,
where the left neighbour is the value ALREADY REWRITTEN by this same
pass (the update is in place), not the pre-pass value. -/
theorem claim_C3_amended (l : List ℝ) (hne : l ≠ []) :
    (smooth_spectrum l).length = l.length ∧
    (smooth_spectrum l).getD 0 0 = l.getD 0 0 ∧
    (smooth_spectrum l).getD (l.length - 1) 0 = l.getD (l.length - 1) 0 ∧
    ∀ i, 1 ≤ i → i + 1 < l.length →
      (smooth_spectrum l).getD i 0 =
        l.getD i 0 * 0.5 + (smooth_spectrum l).getD (i - 1) 0 * 0.25 +
          l.getD (i + 1) 0 * 0.25 := by
  cases l with
  | nil => exact absurd rfl hne
  | cons a rest =>
    refine ⟨smooth_spectrum_length _, rfl, ?_, ?_⟩
    · cases rest with
      | nil => rfl
      | cons b t =>
        have ih := smooth_go_getD_last a (b :: t) (List.cons_ne_nil b t)
        simp only [smooth_spectrum, List.length_cons, Nat.add_sub_cancel] at ih ⊢
        simpa using ih
    · intro i h1 h2
      obtain ⟨k, rfl⟩ : ∃ k, i = k + 1 := ⟨i - 1, by omega⟩
      have hk : k + 1 < rest.length := by simpa using Nat.lt_of_succ_lt_succ h2
      have ih := smooth_go_getD a rest k (by omega)
      simp only [smooth_spectrum, List.getD_cons_succ, Nat.add_sub_cancel]
      rw [ih]
      cases k with
      | zero => simp
      | succ m => simp

theorem claim_C3_witness :
    ([0, 4, 0, 8] : List ℝ) ≠ [] ∧
      (smooth_spectrum [0, 4, 0, 8]).getD 2 0 =
        ([0, 4, 0, 8] : List ℝ).getD 2 0 * 0.5 +
          (smooth_spectrum [0, 4, 0, 8]).getD 1 0 * 0.25 +
          ([0, 4, 0, 8] : List ℝ).getD 3 0 * 0.25 :=
  ⟨by simp, (claim_C3_amended [0, 4, 0, 8] (by simp)).2.2.2 2 (by norm_num) (by norm_num)⟩

/-- C9: a constant spectrum is a fixed point of the smoothing pass. -/
theorem claim_C9 (v : ℝ) (l : List ℝ) (h : ∀ x ∈ l, x = v) :
    smooth_spectrum l = l := by
  cases l with
  | nil => rfl
  | cons a rest =>
    have ha : a = v := h a (by simp)
    simp only [smooth_spectrum]
    rw [ha, smooth_go_const v rest (fun z hz => h z (List.mem_cons_of_mem a hz))]

theorem claim_C9_witness :
    (∀ x ∈ ([2, 2, 2] : List ℝ), x = 2) ∧
      smooth_spectrum [2, 2, 2] = [2, 2, 2] :=
  ⟨by simp, claim_C9 2 [2, 2, 2] (by simp)⟩

/-! ### Claim C8: the decibel normalization utility -/

/-- C8: get_normalized_db is total, returns (db + 90) / 90 without any
clamping when the numeric conversion succeeds (so inputs below -90 give
negative outputs), treats a failed conversion as 0.0, and maps 0.0 to
exactly 1.0. -/
theorem claim_C8 (db : ℝ) (h : db < -90) :
    get_normalized_db (some db) = (db + 90.0) / 90.0 ∧
    get_normalized_db none = get_normalized_db (some 0.0) ∧
    get_normalized_db (some 0.0) = 1.0 ∧
    get_normalized_db (some db) < 0 := by
  refine ⟨rfl, rfl, by norm_num [get_normalized_db], ?_⟩
  have hneg : db + 90.0 < 0 := by linarith
  exact div_neg_of_neg_of_pos (by simpa [get_normalized_db] using hneg) (by norm_num)

theorem claim_C8_witness :
    (-91 : ℝ) < -90 ∧ get_normalized_db (some (-91 : ℝ)) < 0 :=
  ⟨by norm_num, (claim_C8 (-91) (by norm_num)).2.2.2⟩

/-! ### Claim C5: the spectral path ignores the constructed sample rate -/

/-- C5: two analyzers built with different sample rates produce identical
spectra on the same buffer; the spectral path reads only the fixed
nominal constant SAMPLE_RATE, never the constructor parameter. -/
theorem claim_C5 (sr1 sr2 : ℝ) (h : sr1 ≠ sr2) (buf : List ℝ) :
    (SpectrumAnalyzer.new sr1).compute_spectrum buf =
      (SpectrumAnalyzer.new sr2).compute_spectrum buf := rfl

theorem claim_C5_witness :
    (44100 : ℝ) ≠ 48000 ∧
      (SpectrumAnalyzer.new 44100).compute_spectrum (List.replicate 4096 1) =
        (SpectrumAnalyzer.new 48000).compute_spectrum (List.replicate 4096 1) :=
  ⟨by norm_num, claim_C5 44100 48000 (by norm_num) (List.replicate 4096 1)⟩

/-! ### Claim C2: output length -/

theorem pre_spectrum_length_le (buf : List ℝ) :
    (pre_spectrum buf).length ≤ BUFFER_SZ_HALF := by
  unfold pre_spectrum
  refine le_trans (List.length_filterMap_le _ _) ?_
  simp [List.length_take]

theorem pad_spectrum_length (s : List ℝ) (h : s.length ≤ BUFFER_SZ) :
    (pad_spectrum s).length = BUFFER_SZ := by
  simp only [pad_spectrum, List.length_append, List.length_replicate]
  omega

/-- C2: for every sample rate sr > 0 and every input buffer of length
BUFFER_SZ, compute_spectrum returns a buffer of length exactly BUFFER_SZ. -/
theorem claim_C2 (sr : ℝ) (hsr : 0 < sr) (buf : List ℝ)
    (hlen : buf.length = BUFFER_SZ) :
    ((SpectrumAnalyzer.new sr).compute_spectrum buf).length = BUFFER_SZ := by
  unfold SpectrumAnalyzer.compute_spectrum
  rw [smooth_spectrum_length, pad_spectrum_length]
  exact le_trans (pre_spectrum_length_le buf) (by norm_num [BUFFER_SZ_HALF, BUFFER_SZ])

theorem claim_C2_witness :
    (0 : ℝ) < 44100 ∧ (List.replicate 4096 (0.5 : ℝ)).length = BUFFER_SZ ∧
      ((SpectrumAnalyzer.new 44100).compute_spectrum
        (List.replicate 4096 (0.5 : ℝ))).length = BUFFER_SZ :=
  ⟨by norm_num, by rw [List.length_replicate]; rfl,
    claim_C2 44100 (by norm_num) _ (by rw [List.length_replicate]; rfl)⟩

/-! ### Claim C6: the band-level path refines the spec's filter recurrence -/

/-- Spec-side smoothing coefficient of the low-pass stage:
alpha_low = dt / (rc_low + dt) with dt = 1/sr, rc_low = 1/(2 pi high). -/
def spec_alpha_low (high sr : ℝ) : ℝ :=
  let dt := 1.0 / sr
  let rc_low := 1.0 / (2.0 * Real.pi * high)
  dt / (rc_low + dt)

/-- Spec-side coefficient of the high-pass stage:
alpha_high = rc_high / (rc_high + dt) with rc_high = 1/(2 pi low). -/
def spec_alpha_high (low sr : ℝ) : ℝ :=
  let dt := 1.0 / sr
  let rc_high := 1.0 / (2.0 * Real.pi * low)
  rc_high / (rc_high + dt)

/-- Spec-side filtered sequence: the per-sample recurrence
y1 = alpha_low*x + (1-alpha_low)*y1; y2 = alpha_high*y1 + (1-alpha_high)*y2;
output = y1 - y2, started from the persistent state (y1, y2). -/
def spec_filtered (alpha_low alpha_high : ℝ) : ℝ → ℝ → List ℝ → List ℝ
  | _, _, [] => []
  | y1, y2, x :: xs =>
    let y1n := alpha_low * x + (1.0 - alpha_low) * y1
    let y2n := alpha_high * y1n + (1.0 - alpha_high) * y2
    (y1n - y2n) :: spec_filtered alpha_low alpha_high y1n y2n xs

/-- Spec-side final filter state after running the recurrence. -/
def spec_final (alpha_low alpha_high : ℝ) : ℝ → ℝ → List ℝ → ℝ × ℝ
  | y1, y2, [] => (y1, y2)
  | y1, y2, x :: xs =>
    let y1n := alpha_low * x + (1.0 - alpha_low) * y1
    let y2n := alpha_high * y1n + (1.0 - alpha_high) * y2
    spec_final alpha_low alpha_high y1n y2n xs

/-- Spec-side band level: 0.7 * RMS(filtered) + 0.3 * peak(filtered). -/
def spec_band_level (low high sr y1 y2 : ℝ) (samples : List ℝ) : ℝ :=
  let filtered :=
    spec_filtered (spec_alpha_low high sr) (spec_alpha_high low sr) y1 y2 samples
  let rms := Real.sqrt (((filtered.map fun x => x * x).sum) / (filtered.length : ℝ))
  let peak := filtered.foldl (fun a b => max a |b|) 0.0
  0.7 * rms + 0.3 * peak

theorem run_filter_eq (sr lo hi : ℝ) (samples : List ℝ) :
    ∀ y1 y2 : ℝ,
      run_filter sr ⟨lo, hi, y1, y2⟩ samples =
        ({ low := lo, high := hi,
           y1 := (spec_final (spec_alpha_low hi sr) (spec_alpha_high lo sr) y1 y2 samples).1,
           y2 := (spec_final (spec_alpha_low hi sr) (spec_alpha_high lo sr) y1 y2 samples).2 },
         spec_filtered (spec_alpha_low hi sr) (spec_alpha_high lo sr) y1 y2 samples) := by
  induction samples with
  | nil => intro y1 y2; rfl
  | cons x xs ih =>
    intro y1 y2
    simp only [run_filter, BandpassFilter.process, spec_filtered, spec_final,
      spec_alpha_low, spec_alpha_high]
    rw [ih]
    rfl

/-- The analyzer as constructed (four fixed band edges) after any number
of previous calls: the persistent IIR states are arbitrary. -/
def band_analyzer (sr a1 b1 a2 b2 a3 b3 a4 b4 : ℝ) : SpectrumAnalyzer :=
  { filters :=
      [⟨0.0, 80.0, a1, b1⟩, ⟨80.0, 1000.0, a2, b2⟩,
       ⟨1000.0, 6000.0, a3, b3⟩, ⟨6000.0, 20000.0, a4, b4⟩],
    resolution := Resolution.High,
    sample_rate := sr }

/-- C6: on any non-empty input, compute_band_levels returns the four band
levels in filter-bank order; each level is 0.7 * RMS + 0.3 * peak of the
sequence produced by the spec's two-stage recurrence started from the
persistent state, and the state kept for the next call is the
recurrence's final state (no reset). -/
theorem claim_C6 (sr a1 b1 a2 b2 a3 b3 a4 b4 : ℝ) (samples : List ℝ)
    (hne : samples ≠ []) :
    ((band_analyzer sr a1 b1 a2 b2 a3 b3 a4 b4).compute_band_levels samples).2 =
      [spec_band_level 0.0 80.0 sr a1 b1 samples,
       spec_band_level 80.0 1000.0 sr a2 b2 samples,
       spec_band_level 1000.0 6000.0 sr a3 b3 samples,
       spec_band_level 6000.0 20000.0 sr a4 b4 samples] ∧
    ((band_analyzer sr a1 b1 a2 b2 a3 b3 a4 b4).compute_band_levels samples).1.filters =
      [{ low := 0.0, high := 80.0,
         y1 := (spec_final (spec_alpha_low 80.0 sr) (spec_alpha_high 0.0 sr) a1 b1 samples).1,
         y2 := (spec_final (spec_alpha_low 80.0 sr) (spec_alpha_high 0.0 sr) a1 b1 samples).2 },
       { low := 80.0, high := 1000.0,
         y1 := (spec_final (spec_alpha_low 1000.0 sr) (spec_alpha_high 80.0 sr) a2 b2 samples).1,
         y2 := (spec_final (spec_alpha_low 1000.0 sr) (spec_alpha_high 80.0 sr) a2 b2 samples).2 },
       { low := 1000.0, high := 6000.0,
         y1 := (spec_final (spec_alpha_low 6000.0 sr) (spec_alpha_high 1000.0 sr) a3 b3 samples).1,
         y2 := (spec_final (spec_alpha_low 6000.0 sr) (spec_alpha_high 1000.0 sr) a3 b3 samples).2 },
       { low := 6000.0, high := 20000.0,
         y1 := (spec_final (spec_alpha_low 20000.0 sr) (spec_alpha_high 6000.0 sr) a4 b4 samples).1,
         y2 := (spec_final (spec_alpha_low 20000.0 sr) (spec_alpha_high 6000.0 sr) a4 b4 samples).2 }] := by
  constructor <;>
    simp only [SpectrumAnalyzer.compute_band_levels, band_analyzer, band_level,
      spec_band_level, List.map_cons, List.map_nil, run_filter_eq]

theorem claim_C6_witness :
    ([1] : List ℝ) ≠ [] ∧
      ((band_analyzer 48000 0 0 0 0 0 0 0 0).compute_band_levels [1]).2 =
        [spec_band_level 0.0 80.0 48000 0 0 [1],
         spec_band_level 80.0 1000.0 48000 0 0 [1],
         spec_band_level 1000.0 6000.0 48000 0 0 [1],
         spec_band_level 6000.0 20000.0 48000 0 0 [1]] :=
  ⟨by simp, (claim_C6 48000 0 0 0 0 0 0 0 0 [1] (by simp)).1⟩

/-! ### Claim C7: compute_band_levels arity and the empty input -/

/-- C7 counterexample: the code does NOT reject the empty input; it still
produces a 4-element result (the RMS divides 0.0 by 0.0, which in the
f32 implementation yields NaN rather than any rejection or error). -/
theorem claim_C7_counterexample :
    (((SpectrumAnalyzer.new 44100).compute_band_levels []).2).length = 4 := by
  simp [SpectrumAnalyzer.compute_band_levels, SpectrumAnalyzer.new]

/-- C7 (amended): compute_band_levels returns exactly 4 values for every
input sequence, the empty one included; the empty input is not rejected,
the division by zero inside the RMS simply flows into the result. -/
theorem claim_C7_amended (a : SpectrumAnalyzer) (h : a.filters.length = 4)
    (samples : List ℝ) :
    ((a.compute_band_levels samples).2).length = 4 := by
  simp [SpectrumAnalyzer.compute_band_levels, h]

theorem claim_C7_witness :
    ((SpectrumAnalyzer.new 44100).filters).length = 4 ∧
      (((SpectrumAnalyzer.new 44100).compute_band_levels [0.25]).2).length = 4 :=
  ⟨by simp [SpectrumAnalyzer.new], claim_C7_amended _ (by simp [SpectrumAnalyzer.new]) [0.25]⟩

/-! ### Claim C4: how many bins the per-bin stage emits -/

theorem get_freq_le_iff (i : ℕ) : get_freq i ≤ SAMPLE_RATE / 2.0 ↔ i ≤ 1023 := by
  have h2048 : ((BUFFER_SZ / 2 : ℕ) : ℝ) = 2048 := by norm_num [BUFFER_SZ]
  rw [get_freq, h2048]
  unfold SAMPLE_RATE
  constructor
  · intro h
    by_contra hc
    push_neg at hc
    have h1024 : (1024 : ℝ) ≤ (i : ℝ) := by exact_mod_cast hc
    have : (i : ℝ) * 44100 / 2048 + 1.0 ≥ 1024 * 44100 / 2048 + 1.0 := by
      have := mul_le_mul_of_nonneg_right h1024 (by norm_num : (0:ℝ) ≤ 44100)
      linarith
    norm_num at this
    linarith
  · intro h
    have h1023 : (i : ℝ) ≤ 1023 := by exact_mod_cast h
    have : (i : ℝ) * 44100 / 2048 + 1.0 ≤ 1023 * 44100 / 2048 + 1.0 := by
      have := mul_le_mul_of_nonneg_right h1023 (by norm_num : (0:ℝ) ≤ 44100)
      linarith
    norm_num at this ⊢
    linarith

theorem length_filterMap_eq_countP {α β : Type} (g : α → Option β) (l : List α) :
    (l.filterMap g).length = l.countP fun a => (g a).isSome := by
  induction l with
  | nil => rfl
  | cons a t ih =>
    rw [List.filterMap_cons, List.countP_cons]
    cases h : g a <;> simp [h, ih]

theorem spectrum_bin_isSome (dr : ℝ) (i : ℕ) (c : ℂ) :
    (spectrum_bin dr i c).isSome = decide (i ≤ 1023) := by
  by_cases hi : i ≤ 1023
  · have hfreq : ¬ get_freq i > SAMPLE_RATE / 2.0 :=
      not_lt.mpr ((get_freq_le_iff i).mpr hi)
    simp [spectrum_bin, hfreq, hi]
  · have hfreq : get_freq i > SAMPLE_RATE / 2.0 :=
      lt_of_not_le fun hle => hi ((get_freq_le_iff i).mp hle)
    simp [spectrum_bin, hfreq, hi]

theorem filterMap_spectrum_bin_length (dr : ℝ) (L : List (ℕ × ℂ)) :
    (L.filterMap fun ic => spectrum_bin dr ic.1 ic.2).length =
      L.countP fun ic => decide (ic.1 ≤ 1023) := by
  rw [length_filterMap_eq_countP]
  simp only [spectrum_bin_isSome]

theorem countP_range'_le1023 :
    ∀ n s : ℕ, (List.range' s n).countP (fun i => decide (i ≤ 1023)) =
      min n (1024 - s)
  | 0, s => by simp
  | (n + 1), s => by
    rw [List.range'_succ, List.countP_cons, countP_range'_le1023 n (s + 1)]
    by_cases hs : s ≤ 1023 <;> simp [hs] <;> omega

theorem enum_countP_le1023 (L : List ℂ) :
    (L.enum.countP fun x => decide (x.1 ≤ 1023)) =
      (List.range L.length).countP fun i => decide (i ≤ 1023) := by
  rw [show (fun x : ℕ × ℂ => decide (x.1 ≤ 1023)) =
        ((fun i => decide (i ≤ 1023)) ∘ Prod.fst) from rfl,
    ← List.countP_map, List.enum_map_fst]

theorem dft_length (x : List ℂ) : (dft x).length = x.length := by
  rw [dft, List.length_map, List.length_range]

theorem apply_window_length (buf : List ℝ) :
    (apply_window buf).length = buf.length := by
  simp [apply_window]

theorem pre_spectrum_length (buf : List ℝ) (h : buf.length = BUFFER_SZ) :
    (pre_spectrum buf).length = 1024 := by
  unfold pre_spectrum
  rw [filterMap_spectrum_bin_length, enum_countP_le1023, List.length_take,
    dft_length, apply_window_length, h, List.range_eq_range']
  rw [show min BUFFER_SZ_HALF BUFFER_SZ = BUFFER_SZ_HALF by
    norm_num [BUFFER_SZ_HALF, BUFFER_SZ]]
  rw [countP_range'_le1023]
  norm_num [BUFFER_SZ_HALF, BUFFER_SZ]

/-- C4 counterexample: bin 1024 already lies in [0, BUFFER_SZ/2) but its
mapped frequency 22051 exceeds the Nyquist limit 22050, so it is
discarded; on a length-BUFFER_SZ input the per-bin stage emits 1024
bins, not BUFFER_SZ/2 = 2048. -/
theorem claim_C4_counterexample :
    get_freq 1024 > SAMPLE_RATE / 2.0 ∧
      (pre_spectrum (List.replicate BUFFER_SZ 0)).length ≠ BUFFER_SZ / 2 := by
  constructor
  · norm_num [get_freq, SAMPLE_RATE, BUFFER_SZ]
  · rw [pre_spectrum_length _ (by rw [List.length_replicate])]
    norm_num [BUFFER_SZ]

/-- C4 (amended): the per-bin stage emits exactly BUFFER_SZ/4 = 1024 bins
before padding: bin i is kept iff its mapped frequency is at most
SAMPLE_RATE/2, which holds iff i <= 1023; padding then appends
zero-valued bins until the length equals BUFFER_SZ. -/
theorem claim_C4_amended (buf : List ℝ) (h : buf.length = BUFFER_SZ) :
    (pre_spectrum buf).length = BUFFER_SZ / 4 ∧
    (∀ i : ℕ, get_freq i ≤ SAMPLE_RATE / 2.0 ↔ i ≤ 1023) ∧
    pad_spectrum (pre_spectrum buf) =
      pre_spectrum buf ++ List.replicate (BUFFER_SZ - BUFFER_SZ / 4) 0.0 ∧
    (pad_spectrum (pre_spectrum buf)).length = BUFFER_SZ := by
  have hlen := pre_spectrum_length buf h
  refine ⟨by rw [hlen]; norm_num [BUFFER_SZ], get_freq_le_iff, ?_, ?_⟩
  · rw [pad_spectrum, hlen]
    norm_num [BUFFER_SZ]
  · rw [pad_spectrum_length]
    rw [hlen]
    norm_num [BUFFER_SZ]

theorem claim_C4_witness :
    (List.replicate 4096 (1 : ℝ)).length = BUFFER_SZ ∧
      (pre_spectrum (List.replicate 4096 (1 : ℝ))).length = BUFFER_SZ / 4 :=
  ⟨by rw [List.length_replicate]; rfl,
    (claim_C4_amended _ (by rw [List.length_replicate]; rfl)).1⟩

/-! ### Bounds on the per-bin values, for claims C1 and C10 -/

theorem logb_ten_hundred : Real.logb 10 100 = 2 := by
  rw [show (100 : ℝ) = 10 ^ (2 : ℕ) by norm_num, Real.logb, Real.log_pow]
  have h10 : Real.log 10 > 0 := Real.log_pos (by norm_num)
  field_simp

theorem get_freq_ge_one (i : ℕ) : 1 ≤ get_freq i := by
  unfold get_freq SAMPLE_RATE
  have : (0 : ℝ) ≤ (i : ℝ) * 44100 / ((BUFFER_SZ / 2 : ℕ) : ℝ) := by positivity
  linarith

theorem clamp_mul_bounds (ndb erb : ℝ) (herb0 : 0 ≤ erb) (herb2 : erb ≤ 42.8) :
    0 ≤ min (max ndb 0.0) 1.2 * (1.0 + erb * 0.1) ∧
      min (max ndb 0.0) 1.2 * (1.0 + erb * 0.1) ≤ 6.336 := by
  have h0 : (0 : ℝ) ≤ min (max ndb 0.0) 1.2 :=
    le_min (le_trans (by norm_num) (le_max_right ndb 0.0)) (by norm_num)
  have h12 : min (max ndb 0.0) 1.2 ≤ 1.2 := min_le_right _ _
  have hf0 : (0 : ℝ) ≤ 1.0 + erb * 0.1 := by linarith
  have hf : 1.0 + erb * 0.1 ≤ 5.28 := by linarith
  constructor
  · exact mul_nonneg h0 hf0
  · calc min (max ndb 0.0) 1.2 * (1.0 + erb * 0.1) ≤ 1.2 * 5.28 :=
          mul_le_mul h12 hf hf0 (by norm_num)
    _ = 6.336 := by norm_num

theorem spectrum_bin_bounds (dr : ℝ) (i : ℕ) (c : ℂ) (v : ℝ)
    (h : spectrum_bin dr i c = some v) : 0 ≤ v ∧ v ≤ 6.336 := by
  by_cases hfreq : get_freq i > SAMPLE_RATE / 2.0
  · simp [spectrum_bin, hfreq] at h
  · simp only [spectrum_bin] at h
    rw [if_neg hfreq] at h
    have hv := Option.some.inj h
    have hge : 1 ≤ get_freq i := get_freq_ge_one i
    have hle : get_freq i ≤ 22050 := by
      have h' := not_lt.mp hfreq
      rw [SAMPLE_RATE] at h'
      norm_num at h'
      exact h'
    have harg1 : (1 : ℝ) ≤ 0.00437 * get_freq i + 1.0 := by linarith
    have harg100 : 0.00437 * get_freq i + 1.0 ≤ 100 := by linarith
    have herb0 : 0 ≤ 21.4 * Real.logb 10 (0.00437 * get_freq i + 1.0) := by
      have := Real.logb_nonneg (b := 10) (by norm_num) harg1
      linarith
    have herb2 : 21.4 * Real.logb 10 (0.00437 * get_freq i + 1.0) ≤ 42.8 := by
      have hmono : Real.logb 10 (0.00437 * get_freq i + 1.0) ≤ Real.logb 10 100 :=
        Real.logb_le_logb_of_le (by norm_num) (by linarith) harg100
      rw [logb_ten_hundred] at hmono
      linarith
    rw [← hv]
    exact clamp_mul_bounds _ _ herb0 herb2

theorem pre_spectrum_bounds (buf : List ℝ) (v : ℝ) (hv : v ∈ pre_spectrum buf) :
    0 ≤ v ∧ v ≤ 6.336 := by
  unfold pre_spectrum at hv
  rw [List.mem_filterMap] at hv
  obtain ⟨ic, _, hbin⟩ := hv
  exact spectrum_bin_bounds _ _ _ _ hbin

theorem pad_spectrum_mem (s : List ℝ) (v : ℝ) (hv : v ∈ pad_spectrum s) :
    v ∈ s ∨ v = 0.0 := by
  rcases List.mem_append.mp hv with h | h
  · exact Or.inl h
  · exact Or.inr (List.eq_of_mem_replicate h)

theorem smooth_go_bounds (lo hi : ℝ) :
    ∀ (prev : ℝ) (l : List ℝ), lo ≤ prev → prev ≤ hi →
      (∀ x ∈ l, lo ≤ x ∧ x ≤ hi) → ∀ v ∈ smooth_go prev l, lo ≤ v ∧ v ≤ hi
  | _, [], _, _, _ => by simp [smooth_go]
  | prev, [x], _, _, h => by
    intro v hv
    rw [smooth_go] at hv
    rcases List.mem_singleton.mp hv with rfl
    exact h v (by simp)
  | prev, x :: y :: t, hp1, hp2, h => by
    intro v hv
    have hx := h x (by simp)
    have hy := h y (by simp)
    have hx'1 : lo ≤ x * 0.5 + prev * 0.25 + y * 0.25 := by
      rcases hx with ⟨hx1, _⟩; rcases hy with ⟨hy1, _⟩; linarith
    have hx'2 : x * 0.5 + prev * 0.25 + y * 0.25 ≤ hi := by
      rcases hx with ⟨_, hx2⟩; rcases hy with ⟨_, hy2⟩; linarith
    rw [smooth_go] at hv
    rcases List.mem_cons.mp hv with rfl | hv'
    · exact ⟨hx'1, hx'2⟩
    · exact smooth_go_bounds lo hi _ (y :: t) hx'1 hx'2
        (fun z hz => h z (List.mem_cons_of_mem x hz)) v hv'

theorem smooth_spectrum_bounds (lo hi : ℝ) (l : List ℝ)
    (h : ∀ x ∈ l, lo ≤ x ∧ x ≤ hi) :
    ∀ v ∈ smooth_spectrum l, lo ≤ v ∧ v ≤ hi := by
  cases l with
  | nil => simp [smooth_spectrum]
  | cons a rest =>
    intro v hv
    have ha := h a (by simp)
    rw [smooth_spectrum] at hv
    rcases List.mem_cons.mp hv with rfl | hv'
    · exact ha
    · exact smooth_go_bounds lo hi a rest ha.1 ha.2
        (fun z hz => h z (List.mem_cons_of_mem a hz)) v hv'

theorem compute_spectrum_bounds (a : SpectrumAnalyzer) (buf : List ℝ) :
    ∀ v ∈ a.compute_spectrum buf, 0 ≤ v ∧ v ≤ 6.336 := by
  unfold SpectrumAnalyzer.compute_spectrum
  apply smooth_spectrum_bounds
  intro x hx
  rcases pad_spectrum_mem _ _ hx with h | rfl
  · exact pre_spectrum_bounds buf x h
  · norm_num

/-- C10: every value of the returned spectrum buffer is nonnegative: the
clamp's lower bound 0.0, the positive ERB factor, the zero padding and
the smoothing pass (a weighted average) all preserve nonnegativity. -/
theorem claim_C10 (sr : ℝ) (buf : List ℝ) (hlen : buf.length = BUFFER_SZ) :
    ∀ v ∈ (SpectrumAnalyzer.new sr).compute_spectrum buf, 0 ≤ v :=
  fun v hv => (compute_spectrum_bounds (SpectrumAnalyzer.new sr) buf v hv).1

theorem claim_C10_witness :
    (List.replicate 4096 (0.3 : ℝ)).length = BUFFER_SZ ∧
      ∀ v ∈ (SpectrumAnalyzer.new 44100).compute_spectrum
        (List.replicate 4096 (0.3 : ℝ)), 0 ≤ v :=
  ⟨by rw [List.length_replicate]; rfl,
    claim_C10 44100 _ (by rw [List.length_replicate]; rfl)⟩

/-- C1 (amended): every output value lies in [0.0, 6.336]; the claimed
upper bound 1.2 fails because the ERB weighting multiplies the already
clamped value by 1 + erb*0.1 > 1, up to 1 + 42.8*0.1 = 5.28, so the
provable bound is 1.2 * 5.28 = 6.336. -/
theorem claim_C1_amended (sr : ℝ) (buf : List ℝ) (hlen : buf.length = BUFFER_SZ) :
    ∀ v ∈ (SpectrumAnalyzer.new sr).compute_spectrum buf, 0 ≤ v ∧ v ≤ 6.336 :=
  fun v hv => compute_spectrum_bounds (SpectrumAnalyzer.new sr) buf v hv

theorem claim_C1_witness :
    (List.replicate 4096 (0.7 : ℝ)).length = BUFFER_SZ ∧
      ∀ v ∈ (SpectrumAnalyzer.new 44100).compute_spectrum
        (List.replicate 4096 (0.7 : ℝ)), 0 ≤ v ∧ v ≤ 6.336 :=
  ⟨by rw [List.length_replicate]; rfl,
    claim_C1_amended 44100 _ (by rw [List.length_replicate]; rfl)⟩

/-! ### Claim C1 counterexample: an input pushing an output bin above 1.2

The input is a single impulse of amplitude 300 at index 2048 (where the
raised-cosine window is at least 0.5).  DFT bin 0 is then the windowed
sum 300 * w(2048) >= 150, the dynamic range is 0.7 * 300 = 210, so the
bin-0 magnitude is >= 150/2048*210 > 10, the decibel value is >= 20, the
normalized value >= 110/90 clamps to exactly 1.2, and the strictly
positive ERB weight lifts the final bin-0 value strictly above 1.2.
Smoothing leaves bin 0 untouched. -/

def cex_input : List ℝ :=
  List.replicate 2048 0 ++ 300 :: List.replicate 2047 0

theorem cex_len : cex_input.length = 4096 := by
  rw [cex_input, List.length_append, List.length_replicate, List.length_cons,
    List.length_replicate]

theorem enumFrom_append {α : Type} :
    ∀ (l1 l2 : List α) (k : ℕ),
      List.enumFrom k (l1 ++ l2) =
        List.enumFrom k l1 ++ List.enumFrom (k + l1.length) l2
  | [], l2, k => by simp
  | a :: t, l2, k => by
    rw [List.cons_append, List.enumFrom_cons, enumFrom_append t l2 (k + 1),
      List.enumFrom_cons, List.cons_append, List.length_cons]
    have harith : k + 1 + t.length = k + (t.length + 1) := by omega
    rw [harith]

theorem window_rep_sum :
    ∀ (n k : ℕ),
      (((List.replicate n (0 : ℝ)).enumFrom k).map fun ix =>
          ((ix.2 * (0.5 * (1.0 - Real.cos (2.0 * Real.pi * (ix.1 : ℝ) / 4095.0))) : ℝ) : ℂ)).sum = 0
  | 0, _ => rfl
  | n + 1, k => by
    rw [List.replicate_succ, List.enumFrom_cons, List.map_cons, List.sum_cons,
      window_rep_sum n (k + 1)]
    norm_num

theorem apply_window_sum_cex :
    (apply_window cex_input).sum =
      Complex.ofReal
        ((300 : ℝ) * (0.5 * (1.0 - Real.cos (2.0 * Real.pi * ((2048 : ℕ) : ℝ) / 4095.0)))) := by
  simp only [apply_window]
  rw [show cex_input.enum = cex_input.enumFrom 0 from rfl, cex_input]
  rw [enumFrom_append, List.map_append, List.sum_append, window_rep_sum, List.length_replicate,
    List.enumFrom_cons, List.map_cons, List.sum_cons, window_rep_sum]
  norm_num

theorem sum_range_getD :
    ∀ (l : List ℂ), ∑ n ∈ Finset.range l.length, l.getD n 0 = l.sum
  | [] => by simp
  | a :: t => by
    rw [List.length_cons, Finset.sum_range_succ']
    simp only [List.getD_cons_succ, List.getD_cons_zero]
    rw [sum_range_getD t, List.sum_cons, add_comm]

theorem dft_head (x : List ℂ) (n : ℕ) (h : x.length = n + 1) :
    ∃ m, dft x = x.sum :: m := by
  unfold dft
  rw [h, List.range_succ_eq_map, List.map_cons]
  have hexp : ∀ nn : ℕ,
      Complex.exp (-(2 * (Real.pi : ℂ) * Complex.I) * (nn : ℂ) * ((0 : ℕ) : ℂ) / ((n + 1 : ℕ) : ℂ)) = 1 := by
    intro nn
    norm_num
  have hf0 : (∑ nn ∈ Finset.range (n + 1),
      x.getD nn 0 * Complex.exp (-(2 * (Real.pi : ℂ) * Complex.I) * (nn : ℂ) * ((0 : ℕ) : ℂ) / ((n + 1 : ℕ) : ℂ))) = x.sum := by
    simp only [hexp, mul_one]
    rw [← h]
    exact sum_range_getD x
  exact ⟨_, by rw [hf0]⟩

theorem cex_sumsq : ((cex_input.map fun x => x * x).sum) = 90000 := by
  rw [cex_input, List.map_append, List.sum_append, List.map_replicate, List.map_cons,
    List.map_replicate, List.sum_cons, List.sum_replicate, List.sum_replicate]
  norm_num

theorem foldl_max_abs_rep :
    ∀ (n : ℕ) (a : ℝ), 0 ≤ a →
      (List.replicate n (0 : ℝ)).foldl (fun m x => max m |x|) a = a
  | 0, _, _ => rfl
  | n + 1, a, ha => by
    rw [List.replicate_succ, List.foldl_cons]
    have hmax : max a |(0 : ℝ)| = a := by rw [abs_zero]; exact max_eq_left ha
    rw [hmax, foldl_max_abs_rep n a ha]

theorem cex_peak : cex_input.foldl (fun m x => max m |x|) 0.0 = 300 := by
  rw [cex_input, List.foldl_append, foldl_max_abs_rep 2048 0.0 (by norm_num),
    List.foldl_cons]
  have hmax : max (0.0 : ℝ) |(300 : ℝ)| = 300 := by
    rw [abs_of_nonneg (by norm_num : (0 : ℝ) ≤ 300)]
    exact max_eq_right (by norm_num)
  rw [hmax, foldl_max_abs_rep 2047 300 (by norm_num)]

theorem cex_dr : dynamic_range_of cex_input = 210 := by
  simp only [dynamic_range_of]
  rw [cex_sumsq, cex_peak, cex_len]
  rw [show ((4096 : ℕ) : ℝ) = 4096 by norm_num]
  rw [show (90000 / 4096 : ℝ) = (75 / 16) ^ 2 by norm_num,
    Real.sqrt_sq (by norm_num : (0 : ℝ) ≤ 75 / 16)]
  rw [max_eq_right (by norm_num : (75 / 16 : ℝ) ≤ 300 * 0.7)]
  norm_num

theorem spectrum_bin_zero_large (dr : ℝ) (c : ℂ)
    (h : 10 ≤ Complex.abs c / (BUFFER_SZ_HALF : ℝ) * dr) :
    ∃ v, spectrum_bin dr 0 c = some v ∧ 1.2 < v := by
  have hfreq : get_freq 0 = 1 := by norm_num [get_freq, SAMPLE_RATE]
  have hnot : ¬ get_freq 0 > SAMPLE_RATE / 2.0 := by
    rw [hfreq, SAMPLE_RATE]; norm_num
  have hsome : spectrum_bin dr 0 c =
      some (min (max
          (get_normalized_db (some (20.0 * Real.logb 10 (Complex.abs c / (BUFFER_SZ_HALF : ℝ) * dr + 1e-10)))) 0.0) 1.2 *
        (1.0 + 21.4 * Real.logb 10 (0.00437 * get_freq 0 + 1.0) * 0.1)) := by
    simp only [spectrum_bin]
    rw [if_neg hnot]
  refine ⟨_, hsome, ?_⟩
  · rw [hfreq]
    have hdb : (1 : ℝ) ≤ Real.logb 10 (Complex.abs c / (BUFFER_SZ_HALF : ℝ) * dr + 1e-10) := by
      have h10 : (10 : ℝ) ≤ Complex.abs c / (BUFFER_SZ_HALF : ℝ) * dr + 1e-10 := by linarith
      calc (1 : ℝ) = Real.logb 10 10 := (Real.logb_self_eq_one (by norm_num)).symm
        _ ≤ _ := Real.logb_le_logb_of_le (by norm_num) (by norm_num) h10
    have hndb : (110 / 90 : ℝ) ≤
        get_normalized_db (some (20.0 * Real.logb 10 (Complex.abs c / (BUFFER_SZ_HALF : ℝ) * dr + 1e-10))) := by
      show (110 / 90 : ℝ) ≤
        ((20.0 * Real.logb 10 (Complex.abs c / (BUFFER_SZ_HALF : ℝ) * dr + 1e-10)) + 90.0) / 90.0
      have : (20 : ℝ) ≤ 20.0 * Real.logb 10 (Complex.abs c / (BUFFER_SZ_HALF : ℝ) * dr + 1e-10) := by
        linarith
      linarith
    have hclamp : min (max
        (get_normalized_db (some (20.0 * Real.logb 10 (Complex.abs c / (BUFFER_SZ_HALF : ℝ) * dr + 1e-10)))) 0.0) 1.2 = 1.2 := by
      rw [max_eq_left (le_trans (by norm_num) hndb)]
      exact min_eq_right (by linarith)
    rw [hclamp]
    have herb : 0 < Real.logb 10 (0.00437 * 1 + 1.0) :=
      Real.logb_pos (by norm_num) (by norm_num)
    nlinarith [herb]

/-- C1 counterexample: on the length-BUFFER_SZ impulse input cex_input
the spectrum returned by compute_spectrum contains a value strictly
greater than 1.2, refuting the claimed range [0.0, 1.2]. -/
theorem claim_C1_counterexample :
    cex_input.length = BUFFER_SZ ∧
      ∃ v ∈ (SpectrumAnalyzer.new 44100).compute_spectrum cex_input, 1.2 < v := by
  refine ⟨by rw [cex_len]; rfl, ?_⟩
  have hπ := Real.pi_pos
  have hcos : Real.cos (2.0 * Real.pi * ((2048 : ℕ) : ℝ) / 4095.0) ≤ 0 := by
    rw [show ((2048 : ℕ) : ℝ) = 2048 by norm_num]
    apply Real.cos_nonpos_of_pi_div_two_le_of_le
    · nlinarith
    · nlinarith
  have habs : (150 : ℝ) ≤ Complex.abs ((apply_window cex_input).sum) := by
    rw [apply_window_sum_cex]
    rw [Complex.abs_ofReal]
    rw [abs_of_nonneg (by nlinarith :
      (0 : ℝ) ≤ 300 * (0.5 * (1.0 - Real.cos (2.0 * Real.pi * ((2048 : ℕ) : ℝ) / 4095.0))))]
    nlinarith
  obtain ⟨v, hbin, hv⟩ := spectrum_bin_zero_large 210 ((apply_window cex_input).sum) (by
    rw [show ((BUFFER_SZ_HALF : ℕ) : ℝ) = 2048 by norm_num [BUFFER_SZ_HALF, BUFFER_SZ]]
    linarith)
  obtain ⟨mtail, hdft⟩ := dft_head (apply_window cex_input) 4095
    (by rw [apply_window_length, cex_len])
  have hpre : ∃ t, pre_spectrum cex_input = v :: t := by
    simp only [pre_spectrum]
    rw [cex_dr, hdft]
    rw [show BUFFER_SZ_HALF = 2047 + 1 from rfl, List.take_succ_cons, List.enum_cons]
    exact ⟨_, @List.filterMap_cons_some (ℕ × ℂ) ℝ (fun ic => spectrum_bin 210 ic.1 ic.2)
      (0, (apply_window cex_input).sum) (List.enumFrom 1 (List.take 2047 mtail)) v hbin⟩
  obtain ⟨t, hpre⟩ := hpre
  have hcomp : (SpectrumAnalyzer.new 44100).compute_spectrum cex_input =
      v :: smooth_go v (t ++ List.replicate (BUFFER_SZ - (v :: t).length) 0.0) := by
    unfold SpectrumAnalyzer.compute_spectrum
    rw [hpre, pad_spectrum, List.cons_append]
    rfl
  rw [hcomp]
  exact ⟨v, List.mem_cons_self _ _, hv⟩

end

end SpectrumAnalyse
